import Mathlib

/-!
Verification of the Writer rich-text editing engine (the JavaScript embedded
in src/writer.py): history manager (undo/redo), selection codec,
search/replace, table controller, and content normalization, shallowly
embedded over lists of characters and explicit editor states.

Conventions of the embedding:
* JavaScript strings are `List Char`; JavaScript numbers used as history
  indices are `Int` (the source initializes `historyIndex = -1`).
* The editable DOM surface is modelled at the granularity the examined
  functions observe it: the history manager sees the serialized markup
  (`editor.innerHTML`) as an opaque character list, while the selection
  codec and the search engine see the ordered list of text nodes that the
  `TreeWalker` traversal produces, each text node being a character list.
* Deferred continuations (`setTimeout`) are modelled as having fired before
  the next modelled operation runs, matching the single-actor event model
  described by the source.
-/

/-- A saved logical selection: character offsets into the editor's flattened
text content, as produced by `saveSelection` (writer.py lines 730-761). The
source field `end` is a Lean keyword, so it is named `endOffset` here. -/
structure SelectionInfo where
  start : Nat
  endOffset : Nat
  collapsed : Bool
deriving DecidableEq

/-- One undo snapshot `{content, selection, timestamp}` (writer.py lines
710-714). -/
structure HistoryEntry where
  content : List Char
  selection : Option SelectionInfo
  timestamp : Nat
deriving DecidableEq

/-- The editor-global state read and written by the history manager:
`editorHistory`, `historyIndex`, the serialized content `editor.innerHTML`,
the live selection in logical form, and the `isPerformingUndoRedo` flag
(writer.py lines 694-697). -/
structure EditorState where
  editorHistory : List HistoryEntry
  historyIndex : Int
  content : List Char
  selection : Option SelectionInfo
  isPerformingUndoRedo : Bool
deriving DecidableEq

/-- The push step of `createHistoryEntry` (writer.py lines 716-723): when the
index points strictly before the last entry, drop every entry past the index
(`editorHistory.slice(0, historyIndex + 1)`), then append the new entry and
point the index at the new last entry. -/
def historyPush (entry : HistoryEntry) (hist : List HistoryEntry) (index : Int) :
    List HistoryEntry × Int :=
  let trimmed :=
    if 0 ≤ index ∧ index < (hist.length : Int) - 1 then hist.take (index.toNat + 1)
    else hist
  (trimmed ++ [entry], (trimmed.length : Int))

/-- `createHistoryEntry` (writer.py lines 700-727): a no-op while an
undo/redo replay is in progress, otherwise snapshots the current content and
selection with a timestamp `now` and pushes the entry. -/
def createHistoryEntry (now : Nat) (st : EditorState) : EditorState :=
  if st.isPerformingUndoRedo then st
  else
    let p := historyPush ⟨st.content, st.selection, now⟩ st.editorHistory st.historyIndex
    { st with editorHistory := p.1, historyIndex := p.2 }

/-- `customUndo` (writer.py lines 851-893), returning the success flag
together with the state after the call.  The deferred reset of
`isPerformingUndoRedo` (a 10 ms timeout) is modelled as having fired, so the
flag is false in the returned state; the deferred `restoreSelection` places
the live selection at the entry's saved offsets, modelled by storing the
entry's selection when present.  The `none` branch mirrors the source's
try/catch around an out-of-range index: the index was already decremented
when the failure occurs, the content is untouched, and false is returned. -/
def customUndo (st : EditorState) : Bool × EditorState :=
  if st.editorHistory.length = 0 ∨ st.historyIndex ≤ 0 then (false, st)
  else
    let i := st.historyIndex - 1
    match st.editorHistory.get? i.toNat with
    | some e =>
        let sel := if e.selection.isSome then e.selection else st.selection
        (true, { st with historyIndex := i, content := e.content, selection := sel,
                         isPerformingUndoRedo := false })
    | none => (false, { st with historyIndex := i, isPerformingUndoRedo := false })

/-- `customRedo` (writer.py lines 896-938), symmetric to `customUndo` with
the boundary guard `historyIndex >= editorHistory.length - 1`. -/
def customRedo (st : EditorState) : Bool × EditorState :=
  if st.editorHistory.length = 0 ∨ (st.editorHistory.length : Int) - 1 ≤ st.historyIndex then
    (false, st)
  else
    let i := st.historyIndex + 1
    match st.editorHistory.get? i.toNat with
    | some e =>
        let sel := if e.selection.isSome then e.selection else st.selection
        (true, { st with historyIndex := i, content := e.content, selection := sel,
                         isPerformingUndoRedo := false })
    | none => (false, { st with historyIndex := i, isPerformingUndoRedo := false })

/-- One user edit: the input event handler (writer.py lines 1024-1029) runs
after the DOM mutation has produced new content and a new live selection,
and calls `createHistoryEntry` unless an undo/redo replay is in progress. -/
def userEdit (newContent : List Char) (newSel : Option SelectionInfo) (now : Nat)
    (st : EditorState) : EditorState :=
  let st' := { st with content := newContent, selection := newSel }
  if st'.isPerformingUndoRedo then st' else createHistoryEntry now st'

/-- Apply a sequence of user edits (content, selection, timestamp) in order. -/
def applyEdits : List (List Char × Option SelectionInfo × Nat) → EditorState → EditorState
  | [], st => st
  | e :: rest, st => applyEdits rest (userEdit e.1 e.2.1 e.2.2 st)

/-- `N` consecutive `customUndo` calls (each call's boolean result is
reported to the host as a status message and does not stop the sequence). -/
def undoN : Nat → EditorState → EditorState
  | 0, st => st
  | n + 1, st => undoN n (customUndo st).2

/-- `N` consecutive `customRedo` calls. -/
def redoN : Nat → EditorState → EditorState
  | 0, st => st
  | n + 1, st => redoN n (customRedo st).2

/-- The history cursor is in range and the editor content agrees with the
entry the cursor points at.  This holds whenever the last operation was a
recording edit or an undo/redo replay. -/
def Aligned (st : EditorState) : Prop :=
  0 ≤ st.historyIndex ∧
    ∃ e, st.editorHistory.get? st.historyIndex.toNat = some e ∧ st.content = e.content

/-- `Aligned`, and moreover the cursor points at the last entry. -/
def TipState (st : EditorState) : Prop :=
  st.historyIndex = (st.editorHistory.length : Int) - 1 ∧ Aligned st

/-- The history invariant claimed by the spec: whenever the history is
non-empty, `0 <= historyIndex < editorHistory.length`. -/
def HistoryInv (st : EditorState) : Prop :=
  st.editorHistory ≠ [] →
    0 ≤ st.historyIndex ∧ st.historyIndex < (st.editorHistory.length : Int)

/-- A concrete mid-history editor state used to witness the history
theorems: three entries, cursor at entry 1, replay flag clear. -/
def sampleHistoryState : EditorState :=
  ⟨[⟨[], none, 0⟩, ⟨['a'], none, 1⟩, ⟨['b'], none, 2⟩], 1, ['a'], none, false⟩

/-- Literal string-prefix test over character lists, the primitive behind
the source's `indexOf`/`startsWith`-style literal matching (JavaScript
strings are matched case-sensitively, character by character). -/
def startsWithList : List Char → List Char → Bool
  | [], _ => true
  | _ :: _, [] => false
  | a :: p, b :: s => a == b && startsWithList p s

/-- The number of character positions at which the pattern occurs.  This is
exactly what the `indexOf` staircase of `searchAndHighlight` (writer.py lines
1663-1675) counts: after a hit at index `i` the next probe starts at
`i + 1`, so every occurrence position is counted, including overlapping
ones. -/
def countOcc (t : List Char) : List Char → Nat
  | [] => 0
  | c :: rest => (if startsWithList t (c :: rest) then 1 else 0) + countOcc t rest

/-- The occurrence positions found by the `indexOf` staircase inside a
single text node (writer.py lines 1663-1675), in increasing order; `pos` is
the offset of the current suffix inside the node. -/
def matchPositions (t : List Char) : List Char → Nat → List Nat
  | [], _ => []
  | c :: rest, pos =>
      (if startsWithList t (c :: rest) then [pos] else []) ++ matchPositions t rest (pos + 1)

/-- The `TreeWalker` loop of `searchAndHighlight` (writer.py lines
1651-1675): walk the text nodes in document order, collecting
`(node index, offset)` for every hit, in document order. -/
def textNodeMatchesAux (t : List Char) : List (List Char) → Nat → List (Nat × Nat)
  | [], _ => []
  | s :: rest, i =>
      (matchPositions t s 0).map (fun q => (i, q)) ++ textNodeMatchesAux t rest (i + 1)

/-- All matches of `searchAndHighlight`, in document order. -/
def textNodeMatches (t : List Char) (nodes : List (List Char)) : List (Nat × Nat) :=
  textNodeMatchesAux t nodes 0

/-- The outcome of a `searchAndHighlight` call: `returnedCount` is
`some count` on a normal return and `none` when the call throws
(`IndexSizeError` from `splitText`, see `highlightLoop`) and so never
returns; `matchList` holds the collected matches in document order;
`searchResults` and `searchIndex` are the values the global search state
holds after the call (after a throw: the spans pushed before the exception,
and the initial `-1`, since `selectSearchResult(0)` is never reached). -/
structure SearchOutcome where
  returnedCount : Option Nat
  matchList : List (Nat × Nat)
  searchResults : List (Nat × Nat)
  searchIndex : Int
deriving DecidableEq

/-- The highlight loop of `searchAndHighlight` (writer.py lines 1677-1699):
matches are processed from last to first; for a match at offset `p` of a
node whose current data has length `cur`, `node.splitText(p)` truncates the
node to its first `p` characters and hands back the rest (`splitText`
requires `p ≤ cur`), and `beforeNode.splitText(searchText.length)` then
splits off the match — this second call **throws `IndexSizeError`** when the
handed-back piece is shorter than the term, `cur - p < len`, which happens
exactly when the previously processed (later) match overlaps this one.  On
success the span is wrapped and its reference pushed onto `searchResults`.
Arguments: the remaining matches in processing (reverse document) order,
the current data length of each text node, and the spans pushed so far;
returns the pushed spans, the node lengths, and whether the loop completed
without throwing. -/
def highlightLoop (len : Nat) : List (Nat × Nat) → List Nat → List (Nat × Nat) →
    List (Nat × Nat) × List Nat × Bool
  | [], curLens, spans => (spans, curLens, true)
  | (i, p) :: rest, curLens, spans =>
      if p ≤ curLens.getD i 0 ∧ p + len ≤ curLens.getD i 0 then
        highlightLoop len rest (curLens.set i p) (spans ++ [(i, p)])
      else (spans, curLens, false)

/-- `searchAndHighlight` (writer.py lines 1639-1708).  Clears the previous
search (modelled by starting from fresh state), returns 0 for the empty
term, otherwise scans every text node with the `indexOf` staircase and runs
the reverse-order highlight loop; when the loop completes, match index 0 is
selected if any spans were pushed and the count is returned; when the loop
throws (overlapping matches within one text node), the exception propagates
out of the function — nothing is returned, `searchIndex` stays `-1`, and
`searchResults` keeps the spans pushed before the throw. -/
def searchAndHighlight (t : List Char) (nodes : List (List Char)) : SearchOutcome :=
  if t = [] then
    { returnedCount := some 0, matchList := [], searchResults := [], searchIndex := -1 }
  else
    let found := textNodeMatches t nodes
    let hl := highlightLoop t.length found.reverse (nodes.map List.length) []
    if hl.2.2 then
      { returnedCount := some found.length, matchList := found, searchResults := hl.1,
        searchIndex := if 0 < hl.1.length then 0 else -1 }
    else
      { returnedCount := none, matchList := found, searchResults := hl.1,
        searchIndex := -1 }

/-- Modelled from the spec: the number of non-overlapping literal
occurrences of a term, scanning left to right and skipping the whole term
after each hit.  This is the count §4.4 of the spec attributes to
`search(term)`; it is compared against the source's overlapping count. -/
def specNonOverlapAux (t : List Char) : Nat → List Char → Nat
  | 0, _ => 0
  | _ + 1, [] => 0
  | fuel + 1, c :: rest =>
      if startsWithList t (c :: rest) then
        1 + specNonOverlapAux t fuel (List.drop (t.length - 1) rest)
      else specNonOverlapAux t fuel rest

/-- Modelled from the spec: non-overlapping occurrence count (see
`specNonOverlapAux`).  The fuel `s.length` always suffices because every
step consumes at least one character. -/
def specNonOverlapCount (t s : List Char) : Nat := specNonOverlapAux t s.length s

/-- The global literal substitution `content.replace(regexSearch,
replaceText)` of `replaceAll` (writer.py lines 989-994): the search text is
regex-escaped, so the regex matches the literal term; matching is leftmost
and non-overlapping, and the matched segment is replaced.  Fuel-indexed so
that the definition is structural; `fuel = s.length` suffices. -/
def jsReplaceAux (t r : List Char) : Nat → List Char → List Char
  | 0, s => s
  | _ + 1, [] => []
  | fuel + 1, c :: s =>
      if startsWithList t (c :: s) then
        r ++ jsReplaceAux t r fuel (List.drop (t.length - 1) s)
      else c :: jsReplaceAux t r fuel s

/-- The global substitution over a serialized-markup string (see
`jsReplaceAux`). -/
def replaceAllString (t r s : List Char) : List Char := jsReplaceAux t r s.length s

/-- `(content.match(regexSearch) || []).length` of `replaceAll` (writer.py
lines 996-999): the number of leftmost non-overlapping matches of the
escaped literal regex. -/
def jsMatchCountAux (t : List Char) : Nat → List Char → Nat
  | 0, _ => 0
  | _ + 1, [] => 0
  | fuel + 1, c :: s =>
      if startsWithList t (c :: s) then
        1 + jsMatchCountAux t fuel (List.drop (t.length - 1) s)
      else jsMatchCountAux t fuel s

/-- Characters that the browser serializes into `innerHTML` verbatim: the
model of parsing and serialization below is only claimed for text free of
markup-significant characters (which would be entity-escaped). -/
def plainChar (c : Char) : Bool :=
  c != '<' && c != '>' && c != '&'

/-- `editor.innerHTML` read for a document consisting of plain text nodes:
serialization concatenates the children (no escaping occurs for
`plainChar` text). -/
def serializeTextNodes (nodes : List (List Char)) : List Char := nodes.foldr (· ++ ·) []

/-- Browser parse of an `innerHTML` assignment for markup-free text: the
empty string yields no child nodes, any other plain string yields a single
text node.  This models the `editor.innerHTML = newContent` write of
`replaceAll` for documents within the plain fragment. -/
def parsePlain (s : List Char) : List (List Char) :=
  if s = [] then [] else [s]

/-- `replaceAll` (writer.py lines 977-1013) restricted to the observable
document transformation: returns 0 and leaves the document alone for an
empty search text; otherwise reads the serialized markup, performs the
global literal substitution, counts the matches, and writes the result
back (the surrounding history entries and the `contentChanged`
notification do not affect the resulting document).  The result pairs the
returned count with the text nodes of the rewritten document. -/
def replaceAllDoc (searchText replaceText : List Char) (nodes : List (List Char)) :
    Nat × List (List Char) :=
  if searchText = [] then (0, nodes)
  else
    let content := serializeTextNodes nodes
    let newContent := replaceAllString searchText replaceText content
    (jsMatchCountAux searchText content.length content, parsePlain newContent)

/-- The editor-global search and history state that `replaceSelection`
(writer.py lines 941-974) reads and writes: the document's text nodes, the
history, the live selection, `searchResults`/`searchIndex` (span references
modelled as `(node index, offset)` pairs), `currentSearchText`, and a
counter of `contentChanged` notifications posted to the host. -/
structure SearchApp where
  doc : List (List Char)
  editorHistory : List HistoryEntry
  historyIndex : Int
  isPerformingUndoRedo : Bool
  selection : Option SelectionInfo
  searchResults : List (Nat × Nat)
  searchIndex : Int
  currentSearchText : List Char
  contentChangedCount : Nat
deriving DecidableEq

/-- `createHistoryEntry` as invoked from the search engine: identical to
`createHistoryEntry`, with the serialized content read off the document's
text nodes. -/
def appCreateHistoryEntry (now : Nat) (st : SearchApp) : SearchApp :=
  if st.isPerformingUndoRedo then st
  else
    let p := historyPush ⟨serializeTextNodes st.doc, st.selection, now⟩
      st.editorHistory st.historyIndex
    { st with editorHistory := p.1, historyIndex := p.2 }

/-- The effect of `document.execCommand('insertText', ...)` on the selected
highlight span: within the node holding the span, the `len` characters
starting at `pos` are replaced by `repl`. -/
def spliceNodeAt (nodes : List (List Char)) (nodeIdx pos len : Nat) (repl : List Char) :
    List (List Char) :=
  nodes.set nodeIdx
    ((nodes.getD nodeIdx []).take pos ++ repl ++ (nodes.getD nodeIdx []).drop (pos + len))

/-- `replaceSelection` (writer.py lines 941-974): returns false immediately
when the search-result list is empty or there is no current match index;
otherwise records history, selects the current span's contents and replaces
them via the native text-insertion primitive, posts `contentChanged`,
records history again (deferred), and re-runs `searchAndHighlight` for the
current search text (deferred), refreshing `searchResults` and
`searchIndex`. -/
def replaceSelection (replaceText : List Char) (now later : Nat) (st : SearchApp) :
    Bool × SearchApp :=
  if st.searchResults.length = 0 ∨ st.searchIndex < 0 then (false, st)
  else
    let st1 := appCreateHistoryEntry now st
    let span := st1.searchResults.getD st1.searchIndex.toNat (0, 0)
    let doc1 := spliceNodeAt st1.doc span.1 span.2 st1.currentSearchText.length replaceText
    let st2 := { st1 with doc := doc1, contentChangedCount := st1.contentChangedCount + 1 }
    let st3 := appCreateHistoryEntry later st2
    let out := searchAndHighlight st3.currentSearchText st3.doc
    (true, { st3 with searchResults := out.searchResults, searchIndex := out.searchIndex })

/-- Total text length of the editor, `editor.textContent.length`: the sum of
the text-node lengths. -/
def textLength (nodes : List (List Char)) : Nat := (nodes.map List.length).sum

/-- A position produced by `getNodeAndOffsetAtCharacterOffset`: either a
character offset inside a text node (by walker index), or the source's
last-available-position fallback (its `root.lastChild` / `(root, 0)`
branches, writer.py lines 834-847, collapsed into one constructor since the
claims only distinguish exact placement from fallback). -/
inductive FoundPos where
  | inNode (idx : Nat) (off : Nat)
  | lastPositionFallback
deriving DecidableEq

/-- The `TreeWalker` accumulation loop of
`getNodeAndOffsetAtCharacterOffset` (writer.py lines 809-832): walk the
text nodes accumulating lengths; the first node for which
`currentOffset + nodeLength >= charOffset` receives the position. -/
def getNodeAndOffsetAux (charOffset : Nat) : List (List Char) → Nat → Nat → FoundPos
  | [], _, _ => .lastPositionFallback
  | n :: rest, idx, currentOffset =>
      if charOffset ≤ currentOffset + n.length then .inNode idx (charOffset - currentOffset)
      else getNodeAndOffsetAux charOffset rest (idx + 1) (currentOffset + n.length)

/-- `getNodeAndOffsetAtCharacterOffset` (writer.py lines 809-848). -/
def getNodeAndOffsetAtCharacterOffset (nodes : List (List Char)) (charOffset : Nat) :
    FoundPos :=
  getNodeAndOffsetAux charOffset nodes 0 0

/-- `restoreSelection` (writer.py lines 764-806): a null saved selection
returns false; otherwise both offsets are clamped with
`Math.min(offset, editor.textContent.length)` (saved offsets are counts of
preceding characters, hence non-negative), the two positions are located,
and the selection range is placed there.  The source's
`if (!startPosition || !endPosition)` branch is unreachable because the
helper always returns a position, and the placement of an in-range position
raises no exception, so the call returns true with the placed range. -/
def restoreSelection (selectionInfo : Option SelectionInfo) (nodes : List (List Char)) :
    Bool × Option (FoundPos × FoundPos) :=
  match selectionInfo with
  | none => (false, none)
  | some sel =>
      let maxOffset := textLength nodes
      let startOffset := min sel.start maxOffset
      let endOffset := min sel.endOffset maxOffset
      let startPosition := getNodeAndOffsetAtCharacterOffset nodes startOffset
      let endPosition := getNodeAndOffsetAtCharacterOffset nodes endOffset
      (true, some (startPosition, endPosition))

/-- A position is valid when placing a DOM range at it cannot throw: the
node exists and the offset does not exceed the node's text length. -/
def ValidFoundPos (nodes : List (List Char)) : FoundPos → Prop
  | .inNode idx off => ∃ s, nodes.get? idx = some s ∧ off ≤ s.length
  | .lastPositionFallback => True

/-- `trim()` on a character list: strip whitespace from both ends. -/
def trimChars (s : List Char) : List Char :=
  ((s.dropWhile Char.isWhitespace).reverse.dropWhile Char.isWhitespace).reverse

/-- The block-level tag prefixes `setContent` recognizes (writer.py lines
1503-1508): `<div`, `<p`, `<h`, `<ul`, `<ol`, `<table`. -/
def blockTagPrefixes : List (List Char) :=
  ["<div".toList, "<p".toList, "<h".toList, "<ul".toList, "<ol".toList, "<table".toList]

/-- Whether the trimmed markup starts with one of the recognized block-level
tags. -/
def startsWithBlockTag (s : List Char) : Bool :=
  blockTagPrefixes.any (fun p => startsWithList p s)

/-- `setContent` (writer.py lines 1498-1516), as the markup installed into
`editor.innerHTML`: empty or whitespace-only markup becomes the single empty
block `<div><br></div>`; markup whose trimmed form does not start with a
recognized block tag is wrapped in a `<div>`; otherwise the markup is
installed as supplied.  (The source's null check coincides with the
trimmed-empty test for string inputs; the deferred `wrapUnwrappedText`
normalization pass does not change which markup is installed.) -/
def setContent (html : List Char) : List Char :=
  if trimChars html = [] then "<div><br></div>".toList
  else if startsWithBlockTag (trimChars html) = false then
    "<div>".toList ++ html ++ "</div>".toList
  else html

/-- A table as the row/column operations observe it: `table.rows` is the
list of rows, each row a list of cell contents. -/
def TableRows : Type := List (List (List Char))

/-- The `(index !== undefined) ? index : dflt` idiom used by the row/column
operations to default an omitted index argument. -/
def jsIndexOrDefault (x : Option Int) (dflt : Int) : Int :=
  match x with
  | some i => i
  | none => dflt

/-- `deleteTableRow` (writer.py lines 1341-1357) on the table itself (the
caller has already resolved `tableElement`/`activeTable`): only a table
with more than one row is changed; the row to delete defaults to the last
one and is deleted only when in range. -/
def deleteTableRow (rows : List (List (List Char))) (rowIndex : Option Int) :
    List (List (List Char)) :=
  if 1 < rows.length then
    if 0 ≤ jsIndexOrDefault rowIndex ((rows.length : Int) - 1) ∧
        jsIndexOrDefault rowIndex ((rows.length : Int) - 1) < (rows.length : Int) then
      rows.eraseIdx (jsIndexOrDefault rowIndex ((rows.length : Int) - 1)).toNat
    else rows
  else rows

/-- `deleteTableColumn` (writer.py lines 1359-1378): only a table whose
first row has more than one cell is changed; the column to delete defaults
to the last cell of the first row, and each row loses that cell when it is
in range for that row. -/
def deleteTableColumn (rows : List (List (List Char))) (colIndex : Option Int) :
    List (List (List Char)) :=
  if 0 < rows.length ∧ 1 < (rows.headD []).length then
    rows.map (fun row =>
      if 0 ≤ jsIndexOrDefault colIndex (((rows.headD []).length : Int) - 1) ∧
          jsIndexOrDefault colIndex (((rows.headD []).length : Int) - 1) < (row.length : Int) then
        row.eraseIdx (jsIndexOrDefault colIndex (((rows.headD []).length : Int) - 1)).toNat
      else row)
  else rows

/-- A table as the activation logic observes it: its class list (whitespace
separated class tokens), how many resize handles (`.table-handle` children)
and drag handles (`.table-drag-handle` children) it carries, and its inline
position offsets. -/
structure TableState where
  classes : List (List Char)
  resizeHandles : Nat
  dragHandles : Nat
  marginLeft : Option (List Char)
  marginTop : Option (List Char)
deriving DecidableEq

/-- The document as the table controller observes it: the tables in
document order and the `activeTable` reference (by index). -/
structure TableDoc where
  tables : List TableState
  activeTable : Option Nat
deriving DecidableEq

/-- The fixed alignment-class set of `activateTable` (writer.py line
1258). -/
def alignmentClasses : List (List Char) :=
  ["left-align".toList, "right-align".toList, "center-align".toList, "no-wrap".toList]

/-- The per-table body of `activateTable` (writer.py lines 1252-1283):
clear the inline offsets, determine the current alignment class (the last
class of the fixed set present wins, defaulting to `no-wrap`), rewrite the
class list to carry exactly that alignment class, and append a resize
handle and a drag handle only when the table does not already carry one.
The source's `className.includes` substring test is modelled as membership
of whitespace-separated class tokens. -/
def activateTableOne (t : TableState) : TableState :=
  let currentAlignment :=
    alignmentClasses.foldl (fun acc cls => if cls ∈ t.classes then cls else acc)
      "no-wrap".toList
  let cleared := t.classes.filter (fun c => !(alignmentClasses.contains c))
  { t with
    marginLeft := none
    marginTop := none
    classes := cleared ++ [currentAlignment]
    resizeHandles := if t.resizeHandles = 0 then t.resizeHandles + 1 else t.resizeHandles
    dragHandles := if t.dragHandles = 0 then t.dragHandles + 1 else t.dragHandles }

/-- `activateTable` (writer.py lines 1252-1283) on the document: sets
`activeTable` to the given table and applies `activateTableOne` to it.  It
does **not** touch any other table.  (The out-of-range branch leaves the
table list unchanged; the source would fault on a missing element before
mutating anything.) -/
def activateTable (doc : TableDoc) (i : Nat) : TableDoc :=
  match doc.tables.get? i with
  | some t => { tables := doc.tables.set i (activateTableOne t), activeTable := some i }
  | none => { doc with activeTable := some i }

/-- `deactivateAllTables` (writer.py lines 1403-1415): for every table in
the document, remove the first resize handle and the first drag handle
found (`querySelector(...).remove()` removes one element each), then clear
the active reference. -/
def deactivateAllTables (doc : TableDoc) : TableDoc :=
  { tables := doc.tables.map (fun t =>
      { t with resizeHandles := t.resizeHandles - 1, dragHandles := t.dragHandles - 1 }),
    activeTable := none }

/-- The click-activation path (writer.py lines 1168-1177): clicking a table
that is not the active one first calls `deactivateAllTables`, then
`activateTable`. -/
def clickActivateTable (doc : TableDoc) (i : Nat) : TableDoc :=
  activateTable (deactivateAllTables doc) i

/-- Whether a table currently carries any interaction handle. -/
def hasHandles (t : TableState) : Bool :=
  decide (0 < t.resizeHandles) || decide (0 < t.dragHandles)

lemma historyPush_spec (entry : HistoryEntry) (hist : List HistoryEntry) (index : Int) :
    (historyPush entry hist index).2 = ((historyPush entry hist index).1.length : Int) - 1 ∧
    (historyPush entry hist index).1.get? (historyPush entry hist index).2.toNat = some entry ∧
    0 ≤ (historyPush entry hist index).2 := by
  unfold historyPush
  refine ⟨?_, ?_, ?_⟩
  · simp [List.length_append]
  · rw [Int.toNat_natCast]
    exact List.get?_concat_length _ _
  · positivity

lemma createHistoryEntry_spec (now : Nat) (st : EditorState)
    (h : st.isPerformingUndoRedo = false) :
    (createHistoryEntry now st).content = st.content ∧
    (createHistoryEntry now st).isPerformingUndoRedo = false ∧
    TipState (createHistoryEntry now st) := by
  have hp := historyPush_spec ⟨st.content, st.selection, now⟩ st.editorHistory st.historyIndex
  unfold createHistoryEntry
  rw [if_neg (by simp [h])]
  exact ⟨rfl, h, hp.1, hp.2.2, ⟨st.content, st.selection, now⟩, hp.2.1, rfl⟩

lemma userEdit_spec (c : List Char) (sel : Option SelectionInfo) (now : Nat)
    (st : EditorState) (h : st.isPerformingUndoRedo = false) :
    (userEdit c sel now st).content = c ∧
    (userEdit c sel now st).isPerformingUndoRedo = false ∧
    TipState (userEdit c sel now st) := by
  unfold userEdit
  rw [if_neg (by simp [h])]
  exact createHistoryEntry_spec now { st with content := c, selection := sel } h

lemma applyEdits_spec (edits : List (List Char × Option SelectionInfo × Nat))
    (st : EditorState) (h : st.isPerformingUndoRedo = false) :
    (applyEdits edits st).isPerformingUndoRedo = false ∧
    (edits ≠ [] → TipState (applyEdits edits st)) := by
  induction edits generalizing st with
  | nil => exact ⟨h, by simp⟩
  | cons e rest ih =>
    have he := userEdit_spec e.1 e.2.1 e.2.2 st h
    have hr := ih (userEdit e.1 e.2.1 e.2.2 st) he.2.1
    refine ⟨hr.1, fun _ => ?_⟩
    cases rest with
    | nil => simpa [applyEdits] using he.2.2
    | cons f fs => exact hr.2 (by simp)

lemma aligned_index_lt (st : EditorState) (hA : Aligned st) :
    st.historyIndex.toNat < st.editorHistory.length := by
  obtain ⟨-, e, hget, -⟩ := hA
  exact (List.get?_eq_some.mp hget).1

lemma customUndo_aligned (st : EditorState) (hA : Aligned st) :
    (customUndo st).2.editorHistory = st.editorHistory ∧
    (customUndo st).2.historyIndex =
      (if st.historyIndex ≤ 0 then st.historyIndex else st.historyIndex - 1) ∧
    Aligned (customUndo st).2 := by
  have hlt := aligned_index_lt st hA
  obtain ⟨hge, e, hget, hco⟩ := hA
  by_cases hle : st.historyIndex ≤ 0
  · unfold customUndo
    rw [if_pos (Or.inr hle)]
    exact ⟨rfl, by rw [if_pos hle], hge, e, hget, hco⟩
  · have hguard : ¬ (st.editorHistory.length = 0 ∨ st.historyIndex ≤ 0) := by
      push_neg
      omega
    have hidx : (st.historyIndex - 1).toNat < st.editorHistory.length := by omega
    obtain ⟨e', hget'⟩ : ∃ e',
        st.editorHistory.get? (st.historyIndex - 1).toNat = some e' := by
      rw [List.get?_eq_get hidx]
      exact ⟨_, rfl⟩
    unfold customUndo
    rw [if_neg hguard]
    simp only [hget', Aligned]
    exact ⟨trivial, by rw [if_neg hle], by omega, e', rfl, rfl⟩

lemma customRedo_aligned (st : EditorState) (hA : Aligned st) :
    (customRedo st).2.editorHistory = st.editorHistory ∧
    (customRedo st).2.historyIndex =
      (if (st.editorHistory.length : Int) - 1 ≤ st.historyIndex then st.historyIndex
       else st.historyIndex + 1) ∧
    Aligned (customRedo st).2 := by
  have hlt := aligned_index_lt st hA
  obtain ⟨hge, e, hget, hco⟩ := hA
  by_cases hle : (st.editorHistory.length : Int) - 1 ≤ st.historyIndex
  · unfold customRedo
    rw [if_pos (Or.inr hle)]
    exact ⟨rfl, by rw [if_pos hle], hge, e, hget, hco⟩
  · have hguard : ¬ (st.editorHistory.length = 0 ∨
        (st.editorHistory.length : Int) - 1 ≤ st.historyIndex) := by
      push_neg
      omega
    have hidx : (st.historyIndex + 1).toNat < st.editorHistory.length := by omega
    obtain ⟨e', hget'⟩ : ∃ e',
        st.editorHistory.get? (st.historyIndex + 1).toNat = some e' := by
      rw [List.get?_eq_get hidx]
      exact ⟨_, rfl⟩
    unfold customRedo
    rw [if_neg hguard]
    simp only [hget', Aligned]
    exact ⟨trivial, by rw [if_neg hle], by omega, e', rfl, rfl⟩

lemma undoN_aligned (N : Nat) (st : EditorState) (hA : Aligned st) :
    (undoN N st).editorHistory = st.editorHistory ∧
    (undoN N st).historyIndex = max (st.historyIndex - N) 0 ∧
    Aligned (undoN N st) := by
  induction N generalizing st with
  | zero =>
    refine ⟨rfl, ?_, hA⟩
    have := hA.1
    simp only [undoN]
    omega
  | succ n ih =>
    have hu := customUndo_aligned st hA
    have hrec := ih (customUndo st).2 hu.2.2
    have h0 := hA.1
    refine ⟨by rw [undoN, hrec.1, hu.1], ?_, by rw [undoN]; exact hrec.2.2⟩
    rw [undoN, hrec.2.1, hu.2.1]
    split_ifs with hc <;> omega

lemma redoN_aligned (N : Nat) (st : EditorState) (hA : Aligned st) :
    (redoN N st).editorHistory = st.editorHistory ∧
    (redoN N st).historyIndex =
      min (st.historyIndex + N) ((st.editorHistory.length : Int) - 1) ∧
    Aligned (redoN N st) := by
  induction N generalizing st with
  | zero =>
    refine ⟨rfl, ?_, hA⟩
    have h0 := hA.1
    have hlt := aligned_index_lt st hA
    simp only [redoN]
    omega
  | succ n ih =>
    have hu := customRedo_aligned st hA
    have hrec := ih (customRedo st).2 hu.2.2
    have h0 := hA.1
    have hlt := aligned_index_lt st hA
    refine ⟨by rw [redoN, hrec.1, hu.1], ?_, by rw [redoN]; exact hrec.2.2⟩
    rw [redoN, hrec.2.1, hu.1, hu.2.1]
    split_ifs with hc <;> omega

/-- C1: for every sequence of user edits (each producing one history entry,
the replay flag being clear), followed by exactly `N` `customUndo` calls and
then `N` `customRedo` calls with `N` at most the number of edits and no new
edit in between, the final document content equals the content immediately
after the original edits. -/
theorem customUndoRedo_roundTrip (edits : List (List Char × Option SelectionInfo × Nat))
    (st0 : EditorState) (h0 : st0.isPerformingUndoRedo = false)
    (N : Nat) (hN : N ≤ edits.length) :
    (redoN N (undoN N (applyEdits edits st0))).content = (applyEdits edits st0).content := by
  cases edits with
  | nil =>
    have : N = 0 := by simpa using hN
    subst this
    rfl
  | cons e rest =>
    obtain ⟨hidx1, hA1⟩ := (applyEdits_spec (e :: rest) st0 h0).2 (by simp)
    have hlen1 := aligned_index_lt _ hA1
    have hu := undoN_aligned N (applyEdits (e :: rest) st0) hA1
    have hr := redoN_aligned N (undoN N (applyEdits (e :: rest) st0)) hu.2.2
    obtain ⟨hge1, e1, hget1, hco1⟩ := hA1
    obtain ⟨hge3, e3, hget3, hco3⟩ := hr.2.2
    have hhist : (redoN N (undoN N (applyEdits (e :: rest) st0))).editorHistory =
        (applyEdits (e :: rest) st0).editorHistory := by rw [hr.1, hu.1]
    have hidxeq : (redoN N (undoN N (applyEdits (e :: rest) st0))).historyIndex =
        (applyEdits (e :: rest) st0).historyIndex := by
      rw [hr.2.1, hu.1, hu.2.1]
      omega
    rw [hhist, hidxeq, hget1] at hget3
    rw [hco3, hco1, Option.some.inj hget3]

/-- Witness for C1 at a concrete input: one edit, one undo, one redo. -/
theorem customUndoRedo_roundTrip_witness :
    (⟨[], -1, [], none, false⟩ : EditorState).isPerformingUndoRedo = false ∧
    1 ≤ ([("a".toList, none, 0)] : List (List Char × Option SelectionInfo × Nat)).length ∧
    (redoN 1 (undoN 1 (applyEdits [("a".toList, none, 0)]
        (⟨[], -1, [], none, false⟩ : EditorState)))).content =
      (applyEdits [("a".toList, none, 0)] (⟨[], -1, [], none, false⟩ : EditorState)).content :=
  ⟨rfl, by decide, customUndoRedo_roundTrip [("a".toList, none, 0)] ⟨[], -1, [], none, false⟩
      rfl 1 (by decide)⟩

/-- C2: after every record/undo/redo operation the history invariant
`0 <= index < length` holds whenever the history is non-empty; and recording
a new entry while the index points strictly before the last entry first
truncates all entries past the current index, then appends the new entry and
sets the index to the new last entry (redo history is discarded on a
branching edit). -/
theorem historyInvariant_truncation (now : Nat) (st : EditorState) (h : HistoryInv st) :
    HistoryInv (createHistoryEntry now st) ∧
    HistoryInv (customUndo st).2 ∧
    HistoryInv (customRedo st).2 ∧
    (st.isPerformingUndoRedo = false → 0 ≤ st.historyIndex →
      st.historyIndex < (st.editorHistory.length : Int) - 1 →
      (createHistoryEntry now st).editorHistory =
        st.editorHistory.take (st.historyIndex.toNat + 1) ++ [⟨st.content, st.selection, now⟩] ∧
      (createHistoryEntry now st).historyIndex =
        ((createHistoryEntry now st).editorHistory.length : Int) - 1) := by
  refine ⟨?_, ?_, ?_, ?_⟩
  · by_cases hflag : st.isPerformingUndoRedo
    · unfold createHistoryEntry
      rw [if_pos hflag]
      exact h
    · have hp := historyPush_spec ⟨st.content, st.selection, now⟩ st.editorHistory st.historyIndex
      have hlen := (List.get?_eq_some.mp hp.2.1).1
      unfold createHistoryEntry
      rw [if_neg hflag]
      intro _hne
      constructor
      · exact hp.2.2
      · exact (by omega :
          (historyPush ⟨st.content, st.selection, now⟩ st.editorHistory st.historyIndex).2 <
            ((historyPush ⟨st.content, st.selection, now⟩ st.editorHistory
              st.historyIndex).1.length : Int))
  · by_cases hguard : st.editorHistory.length = 0 ∨ st.historyIndex ≤ 0
    · unfold customUndo
      rw [if_pos hguard]
      exact h
    · push_neg at hguard
      have hbound := h (by intro he; rw [he] at hguard; exact hguard.1 rfl)
      unfold customUndo
      rw [if_neg (by push_neg; exact hguard)]
      cases hget : st.editorHistory.get? (st.historyIndex - 1).toNat with
      | none =>
        simp only [hget, HistoryInv]
        intro _hne
        constructor <;> omega
      | some e' =>
        simp only [hget, HistoryInv]
        intro _hne
        constructor <;> omega
  · by_cases hguard : st.editorHistory.length = 0 ∨
        (st.editorHistory.length : Int) - 1 ≤ st.historyIndex
    · unfold customRedo
      rw [if_pos hguard]
      exact h
    · push_neg at hguard
      have hbound := h (by intro he; rw [he] at hguard; exact hguard.1 rfl)
      unfold customRedo
      rw [if_neg (by push_neg; exact hguard)]
      cases hget : st.editorHistory.get? (st.historyIndex + 1).toNat with
      | none =>
        simp only [hget, HistoryInv]
        intro _hne
        constructor <;> omega
      | some e' =>
        simp only [hget, HistoryInv]
        intro _hne
        constructor <;> omega
  · intro hflag hge hmid
    unfold createHistoryEntry historyPush
    rw [if_neg (by simp [hflag]), if_pos ⟨hge, hmid⟩]
    refine ⟨rfl, ?_⟩
    simp [List.length_append]

/-- Witness for C2 at a concrete mid-history state (three entries, cursor at
entry 1, not replaying), exercising the truncation clause. -/
theorem historyInvariant_truncation_witness :
    HistoryInv sampleHistoryState ∧
    (HistoryInv (createHistoryEntry 5 sampleHistoryState) ∧
      HistoryInv (customUndo sampleHistoryState).2 ∧
      HistoryInv (customRedo sampleHistoryState).2 ∧
      (sampleHistoryState.isPerformingUndoRedo = false →
        0 ≤ sampleHistoryState.historyIndex →
        sampleHistoryState.historyIndex <
          (sampleHistoryState.editorHistory.length : Int) - 1 →
        (createHistoryEntry 5 sampleHistoryState).editorHistory =
          sampleHistoryState.editorHistory.take
              (sampleHistoryState.historyIndex.toNat + 1) ++
            [⟨sampleHistoryState.content, sampleHistoryState.selection, 5⟩] ∧
        (createHistoryEntry 5 sampleHistoryState).historyIndex =
          ((createHistoryEntry 5 sampleHistoryState).editorHistory.length : Int) - 1)) :=
  ⟨by simp only [HistoryInv]; decide,
    historyInvariant_truncation 5 sampleHistoryState (by simp only [HistoryInv]; decide)⟩

/-- C3: `customUndo` returns false, raises no error, and leaves the document
content and the history (entries and index) unchanged whenever the history is
empty or the current index is at most 0 — the whole state is returned
untouched. -/
theorem customUndo_boundary_noop (st : EditorState)
    (h : st.editorHistory = [] ∨ st.historyIndex ≤ 0) :
    customUndo st = (false, st) := by
  have hc : st.editorHistory.length = 0 ∨ st.historyIndex ≤ 0 := by
    rcases h with h | h
    · exact Or.inl (by rw [h]; rfl)
    · exact Or.inr h
  unfold customUndo
  rw [if_pos hc]

/-- Witness for C3: undo on the pristine empty-history state. -/
theorem customUndo_boundary_noop_witness :
    ((⟨[], -1, ['x'], none, false⟩ : EditorState).editorHistory = [] ∨
      (⟨[], -1, ['x'], none, false⟩ : EditorState).historyIndex ≤ 0) ∧
    customUndo (⟨[], -1, ['x'], none, false⟩ : EditorState) =
      (false, (⟨[], -1, ['x'], none, false⟩ : EditorState)) :=
  ⟨Or.inl rfl, customUndo_boundary_noop _ (Or.inl rfl)⟩

lemma countOcc_append_left (t r x : List Char) (ht : t ≠ []) (hd : ∀ c ∈ r, c ∉ t) :
    countOcc t (r ++ x) = countOcc t x := by
  induction r with
  | nil => rfl
  | cons a r' ih =>
    have ha : a ∉ t := hd a (by simp)
    have hne : startsWithList t (a :: (r' ++ x)) = false := by
      cases t with
      | nil => exact absurd rfl ht
      | cons th t' =>
        have hth : (th == a) = false := by
          rw [beq_eq_false_iff_ne]
          intro h
          exact ha (h ▸ List.mem_cons_self th t')
        simp [startsWithList, hth]
    rw [List.cons_append]
    simp only [countOcc, hne, Bool.false_eq_true, if_false, Nat.zero_add]
    exact ih (fun c hc => hd c (by simp [hc]))

lemma startsWithList_pullback (t r : List Char) (ht : t ≠ []) (hr : r ≠ [])
    (hd : ∀ c ∈ r, c ∉ t) :
    ∀ fuel s u, u ≠ [] → (∀ c ∈ u, c ∈ t) →
      startsWithList u (jsReplaceAux t r fuel s) = true → startsWithList u s = true := by
  intro fuel
  induction fuel with
  | zero =>
    intro s u hu hut h
    exact h
  | succ n ih =>
    intro s u hu hut h
    cases s with
    | nil =>
      cases u with
      | nil => exact absurd rfl hu
      | cons uh u' => simp [jsReplaceAux, startsWithList] at h
    | cons c s' =>
      by_cases hm : startsWithList t (c :: s') = true
      · exfalso
        rw [jsReplaceAux, if_pos hm] at h
        cases u with
        | nil => exact hu rfl
        | cons uh u' =>
          cases r with
          | nil => exact hr rfl
          | cons rh r' =>
            rw [List.cons_append] at h
            simp only [startsWithList, Bool.and_eq_true, beq_iff_eq] at h
            have h1 : uh ∈ t := hut uh (by simp)
            have h2 : rh ∉ t := hd rh (by simp)
            exact h2 (h.1 ▸ h1)
      · rw [jsReplaceAux, if_neg hm] at h
        cases u with
        | nil => exact absurd rfl hu
        | cons uh u' =>
          simp only [startsWithList, Bool.and_eq_true, beq_iff_eq] at h ⊢
          refine ⟨h.1, ?_⟩
          cases u' with
          | nil => rfl
          | cons v v' =>
            exact ih s' (v :: v') (by simp) (fun d hdm => hut d (by simp [hdm])) h.2

lemma jsReplace_no_occurrence (t r : List Char) (ht : t ≠ []) (hr : r ≠ [])
    (hd : ∀ c ∈ r, c ∉ t) :
    ∀ fuel s, s.length ≤ fuel → countOcc t (jsReplaceAux t r fuel s) = 0 := by
  intro fuel
  induction fuel with
  | zero =>
    intro s hs
    have hnil : s = [] := List.length_eq_zero.mp (Nat.le_zero.mp hs)
    subst hnil
    rfl
  | succ n ih =>
    intro s hs
    cases s with
    | nil => rfl
    | cons c s' =>
      simp only [List.length_cons] at hs
      by_cases hm : startsWithList t (c :: s') = true
      · rw [jsReplaceAux, if_pos hm]
        rw [countOcc_append_left t r _ ht hd]
        apply ih
        rw [List.length_drop]
        omega
      · rw [jsReplaceAux, if_neg hm]
        have hX : countOcc t (jsReplaceAux t r n s') = 0 := ih s' (by omega)
        have hfalse : startsWithList t (c :: jsReplaceAux t r n s') = false := by
          cases t with
          | nil => exact absurd rfl ht
          | cons th t' =>
            rw [← Bool.not_eq_true]
            intro hcontra
            simp only [startsWithList, Bool.and_eq_true, beq_iff_eq] at hcontra
            obtain ⟨hthc, hrest⟩ := hcontra
            cases t' with
            | nil =>
              apply hm
              simp [startsWithList, hthc]
            | cons v v' =>
              have hpull := startsWithList_pullback (th :: v :: v') r ht hr hd n s'
                (v :: v') (by simp) (fun d hdm => by simp [hdm]) hrest
              apply hm
              simp [startsWithList, hthc, hpull]
        simp only [countOcc, hfalse, Bool.false_eq_true, if_false, Nat.zero_add]
        exact hX

lemma matchPositions_length (t : List Char) : ∀ (s : List Char) (p : Nat),
    (matchPositions t s p).length = countOcc t s := by
  intro s
  induction s with
  | nil => intro p; rfl
  | cons c rest ih =>
    intro p
    cases hb : startsWithList t (c :: rest) <;>
      simp [matchPositions, countOcc, hb, ih, Nat.add_comm]

lemma searchAndHighlight_of_no_occurrence (t : List Char) (nodes : List (List Char))
    (ht : t ≠ []) (h : textNodeMatches t nodes = []) :
    (searchAndHighlight t nodes).returnedCount = some 0 := by
  unfold searchAndHighlight
  rw [if_neg ht]
  simp [h, highlightLoop]

/-- C4 counterexample: with document text `aabb`, term `ab` and the empty
replacement (which certainly does not contain the term), the serialized
global substitution of `replaceAll` leaves the markup `ab`, so a subsequent
`searchAndHighlight("ab")` finds one occurrence, not zero: the replacement
juxtaposed the leftover `a` and `b`. -/
theorem replaceAll_search_counterexample :
    countOcc "ab".toList ([] : List Char) = 0 ∧
    (searchAndHighlight "ab".toList
        (replaceAllDoc "ab".toList [] ["aabb".toList]).2).returnedCount = some 1 ∧
    (searchAndHighlight "ab".toList
        (replaceAllDoc "ab".toList [] ["aabb".toList]).2).returnedCount ≠ some 0 := by
  decide

/-- C4 (amended): for a plain-text document, a non-empty replacement sharing
no character with the (non-empty) term — so that the substitution cannot
create a new occurrence, by itself or by juxtaposition with adjacent text —
`searchAndHighlight(term)` after `replaceAll(term, repl)` returns normally
and finds zero occurrences.  (The original proviso, that the replacement
merely not contain the term, is insufficient: see the counterexample.)  The plainness
hypotheses and `'$' ∉ repl` delimit the fragment on which the
serialization/parsing model and the literal treatment of the replacement
string are faithful to the browser. -/
theorem replaceAll_search_amended (t r : List Char) (nodes : List (List Char))
    (ht : t ≠ []) (hr : r ≠ []) (hd : ∀ c ∈ r, c ∉ t)
    (hplain : ∀ n ∈ nodes, ∀ c ∈ n, plainChar c = true)
    (hrplain : ∀ c ∈ r, plainChar c = true ∧ c ≠ '$') :
    (searchAndHighlight t (replaceAllDoc t r nodes).2).returnedCount = some 0 := by
  have hzero : countOcc t (replaceAllString t r (serializeTextNodes nodes)) = 0 :=
    jsReplace_no_occurrence t r ht hr hd _ _ le_rfl
  have hdoc : (replaceAllDoc t r nodes).2 =
      parsePlain (replaceAllString t r (serializeTextNodes nodes)) := by
    unfold replaceAllDoc
    rw [if_neg ht]
  rw [hdoc]
  apply searchAndHighlight_of_no_occurrence t _ ht
  unfold parsePlain
  by_cases hs : replaceAllString t r (serializeTextNodes nodes) = []
  · rw [if_pos hs]
    rfl
  · rw [if_neg hs]
    have hlen : (textNodeMatches t
        [replaceAllString t r (serializeTextNodes nodes)]).length = 0 := by
      simp [textNodeMatches, textNodeMatchesAux, matchPositions_length, hzero]
    exact List.length_eq_zero.mp hlen

/-- Witness for the amended C4: replacing `ab` by `xy` in `aabb` leaves no
occurrence of `ab` findable by a subsequent search. -/
theorem replaceAll_search_amended_witness :
    ("ab".toList ≠ []) ∧ ("xy".toList ≠ ([] : List Char)) ∧
    (∀ c ∈ "xy".toList, c ∉ "ab".toList) ∧
    (∀ n ∈ [("aabb".toList)], ∀ c ∈ n, plainChar c = true) ∧
    (∀ c ∈ "xy".toList, plainChar c = true ∧ c ≠ '$') ∧
    (searchAndHighlight "ab".toList
      (replaceAllDoc "ab".toList "xy".toList ["aabb".toList]).2).returnedCount = some 0 :=
  ⟨by decide, by decide, by decide, by decide, by decide,
    replaceAll_search_amended "ab".toList "xy".toList ["aabb".toList]
      (by decide) (by decide) (by decide) (by decide) (by decide)⟩

/-- C5 (code bug, evaluation at the failing input): on a document whose
single text node is `aaa`, searching for `aa` collects the two overlapping
match offsets 0 and 1 (the `indexOf` staircase advances by `index + 1`,
writer.py line 1672, instead of by the term length); the reverse-order
highlight loop wraps the match at offset 1 — truncating the node to one
character — and then throws `IndexSizeError` at
`beforeNode.splitText(searchText.length)` (line 1685) for the match at
offset 0, so the call never returns and never selects match index 0, where
the claim says it returns the non-overlapping count 1 with the occurrence
wrapped and match index 0 selected. -/
theorem searchAndHighlight_overlap_throws :
    (searchAndHighlight "aa".toList ["aaa".toList]).returnedCount = none ∧
    (searchAndHighlight "aa".toList ["aaa".toList]).searchIndex = -1 ∧
    (searchAndHighlight "aa".toList ["aaa".toList]).searchResults = [(0, 1)] ∧
    (searchAndHighlight "aa".toList ["aaa".toList]).matchList = [(0, 0), (0, 1)] ∧
    specNonOverlapCount "aa".toList "aaa".toList = 1 := by
  decide

/-- C6: `deleteTableRow` refuses to delete from a table with exactly one
row, and `deleteTableColumn` refuses to delete from a table with exactly one
column (every row holding one cell): the table is returned unchanged, so the
row count (respectively each row's cell count) after the call equals the
count before; moreover a non-empty rectangular table always retains at
least one row and at least one cell in every row. -/
theorem deleteTableRowColumn_refusal (rows : List (List (List Char))) (ri ci : Option Int) :
    (rows.length = 1 → deleteTableRow rows ri = rows) ∧
    ((∀ r ∈ rows, r.length = 1) → deleteTableColumn rows ci = rows) ∧
    (0 < rows.length → 0 < (deleteTableRow rows ri).length) ∧
    ((0 < rows.length ∧ ∀ r ∈ rows, r.length = (rows.headD []).length ∧ 0 < r.length) →
      0 < (deleteTableColumn rows ci).length ∧
        ∀ r ∈ deleteTableColumn rows ci, 0 < r.length) := by
  refine ⟨?_, ?_, ?_, ?_⟩
  · intro h
    unfold deleteTableRow
    rw [if_neg (by omega)]
  · intro h
    unfold deleteTableColumn
    cases rows with
    | nil => rw [if_neg (by simp)]
    | cons r0 rest =>
      have h0 : r0.length = 1 := h r0 (by simp)
      rw [if_neg (by simp [h0])]
  · intro h
    unfold deleteTableRow
    by_cases h2 : 1 < rows.length
    · rw [if_pos h2]
      by_cases h3 : 0 ≤ jsIndexOrDefault ri ((rows.length : Int) - 1) ∧
          jsIndexOrDefault ri ((rows.length : Int) - 1) < (rows.length : Int)
      · rw [if_pos h3]
        have hk : (jsIndexOrDefault ri ((rows.length : Int) - 1)).toNat < rows.length := by
          omega
        have := List.length_eraseIdx_add_one hk
        omega
      · rw [if_neg h3]
        exact h
    · rw [if_neg h2]
      exact h
  · intro ⟨hpos, hrect⟩
    unfold deleteTableColumn
    by_cases hg : 0 < rows.length ∧ 1 < (rows.headD []).length
    · rw [if_pos hg]
      constructor
      · rw [List.length_map]
        exact hpos
      · intro r' hr'
        rw [List.mem_map] at hr'
        obtain ⟨r, hr, rfl⟩ := hr'
        by_cases hc : 0 ≤ jsIndexOrDefault ci (((rows.headD []).length : Int) - 1) ∧
            jsIndexOrDefault ci (((rows.headD []).length : Int) - 1) < (r.length : Int)
        · rw [if_pos hc]
          have hlen : r.length = (rows.headD []).length := (hrect r hr).1
          have hk : (jsIndexOrDefault ci (((rows.headD []).length : Int) - 1)).toNat <
              r.length := by omega
          have := List.length_eraseIdx_add_one hk
          omega
        · rw [if_neg hc]
          exact (hrect r hr).2
    · rw [if_neg hg]
      exact ⟨hpos, fun r hr => (hrect r hr).2⟩

/-- Witness for C6 on a concrete 1×1 table. -/
theorem deleteTableRowColumn_refusal_witness :
    ([[("x".toList)]] : List (List (List Char))).length = 1 ∧
    (∀ r ∈ ([[("x".toList)]] : List (List (List Char))), r.length = 1) ∧
    deleteTableRow [[("x".toList)]] none = [[("x".toList)]] ∧
    deleteTableColumn [[("x".toList)]] none = [[("x".toList)]] ∧
    0 < (deleteTableRow [[("x".toList)]] none).length :=
  ⟨by decide, by decide,
    (deleteTableRowColumn_refusal [[("x".toList)]] none none).1 (by decide),
    (deleteTableRowColumn_refusal [[("x".toList)]] none none).2.1 (by decide),
    (deleteTableRowColumn_refusal [[("x".toList)]] none none).2.2.1 (by decide)⟩

lemma getNodeAndOffsetAux_valid (charOffset : Nat) :
    ∀ (nodes : List (List Char)) (idx curr j off : Nat),
      getNodeAndOffsetAux charOffset nodes idx curr = .inNode j off →
      ∃ k s, j = idx + k ∧ nodes.get? k = some s ∧ off ≤ s.length := by
  intro nodes
  induction nodes with
  | nil =>
    intro idx curr j off h
    simp [getNodeAndOffsetAux] at h
  | cons n rest ih =>
    intro idx curr j off h
    rw [getNodeAndOffsetAux] at h
    by_cases hc : charOffset ≤ curr + n.length
    · rw [if_pos hc] at h
      injection h with h1 h2
      refine ⟨0, n, by omega, rfl, ?_⟩
      omega
    · rw [if_neg hc] at h
      obtain ⟨k, s, hk, hs, hoff⟩ := ih (idx + 1) (curr + n.length) j off h
      exact ⟨k + 1, s, by omega, by simpa using hs, hoff⟩

lemma getNodeAndOffsetAux_finds (charOffset : Nat) :
    ∀ (nodes : List (List Char)) (idx curr : Nat), nodes ≠ [] →
      charOffset ≤ curr + textLength nodes →
      ∃ j off, getNodeAndOffsetAux charOffset nodes idx curr = .inNode j off := by
  intro nodes
  induction nodes with
  | nil =>
    intro idx curr h
    exact absurd rfl h
  | cons n rest ih =>
    intro idx curr _ hle
    by_cases hc : charOffset ≤ curr + n.length
    · exact ⟨idx, charOffset - curr, by rw [getNodeAndOffsetAux, if_pos hc]⟩
    · cases rest with
      | nil =>
        exfalso
        simp [textLength] at hle
        omega
      | cons m rs =>
        have hle2 : charOffset ≤ curr + n.length + textLength (m :: rs) := by
          simp [textLength] at hle ⊢
          omega
        obtain ⟨j, off, hj⟩ := ih (idx + 1) (curr + n.length) (by simp) hle2
        exact ⟨j, off, by rw [getNodeAndOffsetAux, if_neg hc]; exact hj⟩

/-- C7: for every saved selection whose start or end offset exceeds the
current document text length, `restoreSelection` clamps both offsets with
`Math.min(offset, textLength)` (saved offsets are non-negative character
counts, so the clamped offsets lie in `[0, textLength]`), places the
selection at the positions located for the clamped offsets — an exact
in-node position whenever the document has a text node, the
last-available-position fallback otherwise — and never throws: both placed
positions are valid range endpoints.  A null saved selection makes the call
return false instead of failing. -/
theorem restoreSelection_clamps (nodes : List (List Char)) (sel : SelectionInfo)
    (hbeyond : textLength nodes < sel.start ∨ textLength nodes < sel.endOffset) :
    restoreSelection (some sel) nodes =
      (true, some (getNodeAndOffsetAtCharacterOffset nodes (min sel.start (textLength nodes)),
        getNodeAndOffsetAtCharacterOffset nodes (min sel.endOffset (textLength nodes)))) ∧
    ValidFoundPos nodes
      (getNodeAndOffsetAtCharacterOffset nodes (min sel.start (textLength nodes))) ∧
    ValidFoundPos nodes
      (getNodeAndOffsetAtCharacterOffset nodes (min sel.endOffset (textLength nodes))) ∧
    (nodes ≠ [] → ∃ i o j p, restoreSelection (some sel) nodes =
      (true, some (.inNode i o, .inNode j p))) ∧
    restoreSelection none nodes = (false, none) := by
  refine ⟨rfl, ?_, ?_, ?_, rfl⟩
  · cases hres : getNodeAndOffsetAtCharacterOffset nodes (min sel.start (textLength nodes)) with
    | lastPositionFallback => trivial
    | inNode j off =>
      obtain ⟨k, s, hk, hs, hoff⟩ := getNodeAndOffsetAux_valid _ nodes 0 0 j off hres
      exact ⟨s, by rw [hk, Nat.zero_add]; exact hs, hoff⟩
  · cases hres : getNodeAndOffsetAtCharacterOffset nodes (min sel.endOffset (textLength nodes)) with
    | lastPositionFallback => trivial
    | inNode j off =>
      obtain ⟨k, s, hk, hs, hoff⟩ := getNodeAndOffsetAux_valid _ nodes 0 0 j off hres
      exact ⟨s, by rw [hk, Nat.zero_add]; exact hs, hoff⟩
  · intro hne
    obtain ⟨j1, o1, h1⟩ := getNodeAndOffsetAux_finds (min sel.start (textLength nodes))
      nodes 0 0 hne (by simpa using Nat.min_le_right sel.start (textLength nodes))
    obtain ⟨j2, o2, h2⟩ := getNodeAndOffsetAux_finds (min sel.endOffset (textLength nodes))
      nodes 0 0 hne (by simpa using Nat.min_le_right sel.endOffset (textLength nodes))
    refine ⟨j1, o1, j2, o2, ?_⟩
    show (true, some (getNodeAndOffsetAux (min sel.start (textLength nodes)) nodes 0 0,
      getNodeAndOffsetAux (min sel.endOffset (textLength nodes)) nodes 0 0)) =
      (true, some (FoundPos.inNode j1 o1, FoundPos.inNode j2 o2))
    rw [h1, h2]

/-- Witness for C7: a saved selection `(5, 7)` against the two-character
document `ab` is clamped to the end of the document and placed without
error. -/
theorem restoreSelection_clamps_witness :
    (textLength ["ab".toList] < 5 ∨ textLength ["ab".toList] < 7) ∧
    (restoreSelection (some ⟨5, 7, true⟩) ["ab".toList] =
      (true, some (getNodeAndOffsetAtCharacterOffset ["ab".toList]
          (min 5 (textLength ["ab".toList])),
        getNodeAndOffsetAtCharacterOffset ["ab".toList]
          (min 7 (textLength ["ab".toList])))) ∧
    ValidFoundPos ["ab".toList]
      (getNodeAndOffsetAtCharacterOffset ["ab".toList] (min 5 (textLength ["ab".toList]))) ∧
    ValidFoundPos ["ab".toList]
      (getNodeAndOffsetAtCharacterOffset ["ab".toList] (min 7 (textLength ["ab".toList]))) ∧
    ((["ab".toList] : List (List Char)) ≠ [] →
      ∃ i o j p, restoreSelection (some ⟨5, 7, true⟩) ["ab".toList] =
        (true, some (.inNode i o, .inNode j p))) ∧
    restoreSelection none ["ab".toList] = (false, none)) :=
  ⟨Or.inl (by decide), restoreSelection_clamps ["ab".toList] ⟨5, 7, true⟩ (Or.inl (by decide))⟩

/-- C8 counterexample: `activateTable` itself does not deactivate the
previously active table.  Starting from a document whose table 0 is active
and carries both handles, calling `activateTable` on table 1 leaves table
0's handles in place, so two tables carry interaction handles at once —
refuting "at every moment at most one table is active (carries interaction
handles)" as a property of activation.  (Only the click handler calls
`deactivateAllTables` first; the `insertTable` path, writer.py lines
1555-1562, calls `activateTable` directly.) -/
theorem activateTable_two_handles_counterexample :
    ((activateTable ⟨[⟨[], 1, 1, none, none⟩, ⟨[], 0, 0, none, none⟩], some 0⟩ 1).tables.countP
      hasHandles) = 2 ∧
    (activateTable ⟨[⟨[], 1, 1, none, none⟩, ⟨[], 0, 0, none, none⟩], some 0⟩ 1).activeTable =
      some 1 := by
  decide

/-- C8 (amended): the click-activation path — `deactivateAllTables` followed
by `activateTable`, the only activation path that deactivates first — leaves
exactly the activated table carrying handles: the activated table carries
exactly one resize and one drag handle (each attached only because it was
absent), every other table carries none, and the activated table's alignment
class defaults to `no-wrap` when none of the four recognized alignment
classes was present.  `activateTable` alone does not remove other tables'
handles.  The hypothesis that every table carries at most one handle of
each kind holds for all reachable documents, since handles are only ever
attached when absent. -/
theorem clickActivate_unique_handles (doc : TableDoc) (i : Nat) (t0 : TableState)
    (ht : doc.tables.get? i = some t0)
    (hh : ∀ t ∈ doc.tables, t.resizeHandles ≤ 1 ∧ t.dragHandles ≤ 1) :
    (clickActivateTable doc i).activeTable = some i ∧
    (∀ t, (clickActivateTable doc i).tables.get? i = some t →
      t.resizeHandles = 1 ∧ t.dragHandles = 1 ∧
      ((∀ c ∈ alignmentClasses, c ∉ t0.classes) → "no-wrap".toList ∈ t.classes)) ∧
    (∀ j t, j ≠ i → (clickActivateTable doc i).tables.get? j = some t →
      hasHandles t = false) := by
  have hlt : i < doc.tables.length := (List.get?_eq_some.mp ht).1
  have h0 := hh t0 (List.get?_mem ht)
  have hd0 : (deactivateAllTables doc).tables.get? i =
      some { t0 with resizeHandles := t0.resizeHandles - 1,
                     dragHandles := t0.dragHandles - 1 } := by
    show (doc.tables.map _).get? i = _
    rw [List.get?_map, ht]
    rfl
  have hlen0 : (deactivateAllTables doc).tables.length = doc.tables.length := by
    simp [deactivateAllTables]
  unfold clickActivateTable activateTable
  simp only [hd0]
  refine ⟨trivial, ?_, ?_⟩
  · intro t htg
    rw [List.get?_set_eq_of_lt _ (by omega)] at htg
    have hres : t0.resizeHandles - 1 = 0 := by omega
    have hdrag : t0.dragHandles - 1 = 0 := by omega
    obtain rfl : activateTableOne
        { t0 with resizeHandles := t0.resizeHandles - 1,
                  dragHandles := t0.dragHandles - 1 } = t := Option.some.inj htg
    refine ⟨by simp [activateTableOne, hres], by simp [activateTableOne, hdrag], ?_⟩
    intro halign
    have h1 : ¬ "left-align".toList ∈ t0.classes := halign _ (by simp [alignmentClasses])
    have h2 : ¬ "right-align".toList ∈ t0.classes := halign _ (by simp [alignmentClasses])
    have h3 : ¬ "center-align".toList ∈ t0.classes := halign _ (by simp [alignmentClasses])
    have h4 : ¬ "no-wrap".toList ∈ t0.classes := halign _ (by simp [alignmentClasses])
    simp only [String.toList] at h1 h2 h3 h4
    simp [activateTableOne, alignmentClasses, h1, h2, h3, h4]
  · intro j t hj htg
    rw [List.get?_set_ne _ _ (fun h => hj h.symm)] at htg
    simp only [deactivateAllTables, List.get?_map] at htg
    obtain ⟨u, hu, rfl⟩ := Option.map_eq_some'.mp htg
    have hu0 := hh u (List.get?_mem hu)
    have hur : u.resizeHandles - 1 = 0 := by omega
    have hud : u.dragHandles - 1 = 0 := by omega
    simp [hasHandles, hur, hud]

/-- Witness for the amended C8: two tables, table 0 active with both
handles; click-activating table 1 leaves exactly table 1 with handles. -/
theorem clickActivate_unique_handles_witness :
    ((⟨[⟨[], 1, 1, none, none⟩, ⟨[], 0, 0, none, none⟩], some 0⟩ : TableDoc).tables.get? 1 =
      some ⟨[], 0, 0, none, none⟩) ∧
    (∀ t ∈ (⟨[⟨[], 1, 1, none, none⟩, ⟨[], 0, 0, none, none⟩], some 0⟩ : TableDoc).tables,
      t.resizeHandles ≤ 1 ∧ t.dragHandles ≤ 1) ∧
    ((clickActivateTable ⟨[⟨[], 1, 1, none, none⟩, ⟨[], 0, 0, none, none⟩], some 0⟩ 1).activeTable =
        some 1 ∧
      (∀ t, (clickActivateTable
          ⟨[⟨[], 1, 1, none, none⟩, ⟨[], 0, 0, none, none⟩], some 0⟩ 1).tables.get? 1 = some t →
        t.resizeHandles = 1 ∧ t.dragHandles = 1 ∧
        ((∀ c ∈ alignmentClasses, c ∉ (⟨[], 0, 0, none, none⟩ : TableState).classes) →
          "no-wrap".toList ∈ t.classes)) ∧
      (∀ j t, j ≠ 1 → (clickActivateTable
          ⟨[⟨[], 1, 1, none, none⟩, ⟨[], 0, 0, none, none⟩], some 0⟩ 1).tables.get? j = some t →
        hasHandles t = false)) :=
  ⟨rfl, by decide,
    clickActivate_unique_handles ⟨[⟨[], 1, 1, none, none⟩, ⟨[], 0, 0, none, none⟩], some 0⟩ 1
      ⟨[], 0, 0, none, none⟩ rfl (by decide)⟩

lemma startsWithList_self_append : ∀ (p u : List Char), startsWithList p (p ++ u) = true := by
  intro p
  induction p with
  | nil => intro u; rfl
  | cons a p' ih =>
    intro u
    simp [startsWithList, ih]

lemma trimChars_sandwich (a b : Char) (m : List Char) (ha : a.isWhitespace = false)
    (hb : b.isWhitespace = false) :
    trimChars (a :: (m ++ [b])) = a :: (m ++ [b]) := by
  have h1 : (a :: (m ++ [b])).dropWhile Char.isWhitespace = a :: (m ++ [b]) := by
    rw [List.dropWhile_cons, if_neg (by simp [ha])]
  have h2 : (a :: (m ++ [b])).reverse = b :: (m.reverse ++ [a]) := by
    simp
  have h3 : (b :: (m.reverse ++ [a])).dropWhile Char.isWhitespace =
      b :: (m.reverse ++ [a]) := by
    rw [List.dropWhile_cons, if_neg (by simp [hb])]
  unfold trimChars
  rw [h1, h2, h3]
  simp

/-- C9: `setContent` with empty or whitespace-only markup installs exactly
one empty block (`<div><br></div>`); markup whose trimmed form does not
start with a recognized block-level tag is wrapped in a `<div>` before being
installed; and in every case the installed markup, after trimming, starts
with a recognized block-level tag — so the document root always has a
block-level child. -/
theorem setContent_block_guarantee (html : List Char) :
    (trimChars html = [] → setContent html = "<div><br></div>".toList) ∧
    (trimChars html ≠ [] → startsWithBlockTag (trimChars html) = false →
      setContent html = "<div>".toList ++ html ++ "</div>".toList) ∧
    startsWithBlockTag (trimChars (setContent html)) = true := by
  refine ⟨?_, ?_, ?_⟩
  · intro h
    unfold setContent
    rw [if_pos h]
  · intro h1 h2
    unfold setContent
    rw [if_neg h1, if_pos h2]
  · by_cases h1 : trimChars html = []
    · unfold setContent
      rw [if_pos h1]
      decide
    · by_cases h2 : startsWithBlockTag (trimChars html) = false
      · unfold setContent
        rw [if_neg h1, if_pos h2]
        have e : "<div>".toList ++ html ++ "</div>".toList =
            '<' :: (("div>".toList ++ html ++ "</div".toList) ++ ['>']) := by
          simp
        rw [e, trimChars_sandwich '<' '>' _ (by decide) (by decide), ← e]
        unfold startsWithBlockTag blockTagPrefixes
        simp [startsWithList]
      · unfold setContent
        rw [if_neg h1, if_neg h2]
        simpa using h2

/-- Witness for C9 on the non-block markup `hello`. -/
theorem setContent_block_guarantee_witness :
    trimChars "hello".toList ≠ [] ∧
    startsWithBlockTag (trimChars "hello".toList) = false ∧
    setContent "hello".toList = "<div>".toList ++ "hello".toList ++ "</div>".toList ∧
    startsWithBlockTag (trimChars (setContent "hello".toList)) = true :=
  ⟨by decide, by decide,
    (setContent_block_guarantee "hello".toList).2.1 (by decide) (by decide),
    (setContent_block_guarantee "hello".toList).2.2⟩

/-- C10: `replaceSelection` returns false and performs no mutation at all —
no history entry, no document change, no `contentChanged` notification, no
search-state change — whenever the current search-result list is empty or
the current match index is negative: the guard returns before anything is
touched, and the state comes back identical. -/
theorem replaceSelection_guard_noop (replaceText : List Char) (now later : Nat)
    (st : SearchApp) (h : st.searchResults = [] ∨ st.searchIndex < 0) :
    replaceSelection replaceText now later st = (false, st) := by
  have hc : st.searchResults.length = 0 ∨ st.searchIndex < 0 := by
    rcases h with h | h
    · exact Or.inl (by rw [h]; rfl)
    · exact Or.inr h
  unfold replaceSelection
  rw [if_pos hc]

/-- Witness for C10: a state with no search results (and no current match
index) is returned untouched. -/
theorem replaceSelection_guard_noop_witness :
    ((⟨["ab".toList], [], -1, false, none, [], -1, "a".toList, 0⟩ :
        SearchApp).searchResults = [] ∨
      (⟨["ab".toList], [], -1, false, none, [], -1, "a".toList, 0⟩ :
        SearchApp).searchIndex < 0) ∧
    replaceSelection "z".toList 0 1
        (⟨["ab".toList], [], -1, false, none, [], -1, "a".toList, 0⟩ : SearchApp) =
      (false, (⟨["ab".toList], [], -1, false, none, [], -1, "a".toList, 0⟩ : SearchApp)) :=
  ⟨Or.inl rfl, replaceSelection_guard_noop "z".toList 0 1
    ⟨["ab".toList], [], -1, false, none, [], -1, "a".toList, 0⟩ (Or.inl rfl)⟩
